import Mathlib

/-!
Verification of the inventory/price reconciliation core of `seller.py`
(Ozon integration) and `market.py` (Yandex Market integration).

The embedding models the pure data transformations of the two modules.
Python dictionaries produced by the code are modelled as Lean structures
whose fields are exactly the keys the code writes; Python list mutation
is modelled by explicit state passing (a function that mutates a list
argument returns the list's post-call contents as an extra component);
fallible code (Python `int()` raising `ValueError`) returns `Option`.
String data is modelled over Unicode strings; `int()` parsing is modelled
for ASCII input (the feed data the program consumes is ASCII digits).
-/

/-- Inventory row of the feed spreadsheet (`watch_remnants` element).
`code` models `str(row["Код"])`, `quantity` models the raw `Количество`
cell as text (the code compares `str(...)` of it and feeds the same text
to `int()`), `price` models the `Цена` cell. -/
structure Watch where
  code : String
  quantity : String
  price : String
  deriving DecidableEq

/-- Characters stripped by Python `int()` from the ends of its string
argument (ASCII whitespace subset). -/
def isPySpace (c : Char) : Bool :=
  c == ' ' || c == '\t' || c == '\n' || c == '\r' || c == Char.ofNat 11 || c == Char.ofNat 12

/-- Base-10 value of a digit list (accumulator style, matching how a
parser folds digits left to right). -/
def digitsToNat (l : List Char) : Nat :=
  l.foldl (fun a c => a * 10 + (c.toNat - 48)) 0

/-- Tail of the digit parser of Python `int()`: after an initial digit it
accepts further digits, and single underscores standing between two
digits. -/
def goDigits (acc : Nat) : List Char → Option Nat
  | [] => some acc
  | c :: rest =>
    if c.isDigit then goDigits (acc * 10 + (c.toNat - 48)) rest
    else if c = '_' then
      match rest with
      | [] => none
      | c2 :: rest2 =>
        if c2.isDigit then goDigits (acc * 10 + (c2.toNat - 48)) rest2 else none
    else none

/-- Digit-group parser of Python `int()`: `digit+` with single `_`
separators allowed between digits. -/
def parseDigits : List Char → Option Nat
  | [] => none
  | c :: rest => if c.isDigit then goDigits (c.toNat - 48) rest else none

/-- Python `int(str)` after whitespace stripping: an optional single sign
followed by an underscore-grouped digit sequence. -/
def pyIntCore (l : List Char) : Option Int :=
  match l with
  | [] => none
  | c :: rest =>
    if c = '-' then (parseDigits rest).map (fun n => -(n : Int))
    else if c = '+' then (parseDigits rest).map (fun n => (n : Int))
    else (parseDigits (c :: rest)).map (fun n => (n : Int))

/-- Python `int(s)` for an ASCII string `s`: strip whitespace from both
ends, then parse an optionally signed decimal numeral; `none` models a
raised `ValueError`. -/
def pyInt (s : String) : Option Int :=
  pyIntCore (((s.toList.dropWhile isPySpace).reverse.dropWhile isPySpace).reverse)

/-- Quantity normalization shared verbatim by `seller.create_stocks`
(seller.py lines 206-212) and `market.create_stocks` (market.py lines
328-334): text `">10"` becomes 100, text `"1"` becomes 0, any other text
goes through Python `int()`. -/
def normalize_quantity (count : String) : Option Int :=
  if count = ">10" then some 100
  else if count = "1" then some 0
  else pyInt count

/-- Python `str.split(sep)` for a one-character separator: the list of
segments between occurrences of `sep` (`"".split(".") == [""]`). -/
def pySplit (sep : Char) : List Char → List (List Char)
  | [] => [[]]
  | c :: rest =>
    if c = sep then [] :: pySplit sep rest
    else
      match pySplit sep rest with
      | [] => [[c]]
      | g :: gs => (c :: g) :: gs

/-- Embedding of `seller.price_conversion` (seller.py line 263):
`re.sub("[^0-9]", "", price.split(".")[0])` — take the segment before the
first dot and keep only ASCII digits. -/
def price_conversion (price : String) : String :=
  String.mk (((pySplit '.' price.toList).headD []).filter Char.isDigit)

/-- Python value stored in a produced dictionary (string or integer). -/
inductive PyVal where
  | str : String → PyVal
  | int : Int → PyVal
  deriving DecidableEq

/-- Stock-update dictionary built by `seller.create_stocks` (seller.py
line 213): keys `offer_id` and `stock` only. -/
structure SellerStock where
  offer_id : String
  stock : Int
  deriving DecidableEq

/-- The dictionary literal of seller.py line 213, as the association
list of the keys the code writes. -/
def SellerStock.toDict (s : SellerStock) : List (String × PyVal) :=
  [("offer_id", PyVal.str s.offer_id), ("stock", PyVal.int s.stock)]

/-- Element of the `items` list of a Yandex Market stock-update
dictionary (market.py lines 340-344). -/
structure MarketStockItem where
  count : Int
  type : String
  updatedAt : String
  deriving DecidableEq

/-- Stock-update dictionary built by `market.create_stocks` (market.py
lines 335-347). -/
structure MarketStock where
  sku : String
  warehouseId : String
  items : List MarketStockItem
  deriving DecidableEq

/-- Shared matching loop of `seller.create_stocks` (seller.py lines
202-218) and `market.create_stocks` (market.py lines 323-364): walk the
feed; for each row whose code is in `offer_ids`, normalize the quantity
and record the `(code, stock)` pair, removing the code from `offer_ids`
(Python `list.remove`, i.e. `List.erase`).  Returns the recorded pairs in
feed order together with the post-loop contents of `offer_ids`; `none`
models the `ValueError` raised by `int()` on a bad quantity.  The two
source functions differ only in the dictionary each builds from a pair,
applied by the wrappers below. -/
def stocksPairs : List Watch → List String → Option (List (String × Int) × List String)
  | [], offer_ids => some ([], offer_ids)
  | w :: rest, offer_ids =>
    if w.code ∈ offer_ids then
      match normalize_quantity w.quantity with
      | none => none
      | some stock =>
        (stocksPairs rest (offer_ids.erase w.code)).map
          (fun pr => ((w.code, stock) :: pr.1, pr.2))
    else stocksPairs rest offer_ids

/-- Embedding of `seller.create_stocks` (seller.py lines 202-218): matched feed rows
first (feed order), then a zero-stock entry for every code left in
`offer_ids` (catalog order).  The second component is the post-call
contents of the caller's `offer_ids` list (the source mutates it in
place with `remove`). -/
def seller_create_stocks (watch_remnants : List Watch) (offer_ids : List String) :
    Option (List SellerStock × List String) :=
  (stocksPairs watch_remnants offer_ids).map
    (fun pr =>
      (pr.1.map (fun p => SellerStock.mk p.1 p.2) ++
        pr.2.map (fun oid => SellerStock.mk oid 0), pr.2))

/-- Embedding of `market.create_stocks` (market.py lines 293-364). Here `nowIso` models
`datetime.datetime.utcnow().replace(microsecond=0).isoformat()` sampled
once at entry (market.py line 325); the source appends the literal `"Z"`
to it and stamps every produced item with the resulting string.  The
second component is the post-call contents of the caller's `offer_ids`
list. -/
def market_create_stocks (nowIso : String) (watch_remnants : List Watch)
    (offer_ids : List String) (warehouse_id : String) :
    Option (List MarketStock × List String) :=
  let date := nowIso ++ "Z"
  (stocksPairs watch_remnants offer_ids).map
    (fun pr =>
      (pr.1.map (fun p =>
          MarketStock.mk p.1 warehouse_id [MarketStockItem.mk p.2 "FIT" date]) ++
        pr.2.map (fun oid =>
          MarketStock.mk oid warehouse_id [MarketStockItem.mk 0 "FIT" date]),
       pr.2))

/-- Price-update dictionary built by `seller.create_prices` (seller.py
lines 225-231). -/
structure SellerPrice where
  auto_action_enabled : String
  currency_code : String
  offer_id : String
  old_price : String
  price : String
  deriving DecidableEq

/-- Value of the `price` key of a Yandex Market price-update dictionary
(market.py lines 392-397). -/
structure MarketPriceValue where
  value : Int
  currencyId : String
  deriving DecidableEq

/-- Price-update dictionary built by `market.create_prices` (market.py
lines 389-400). -/
structure MarketPrice where
  id : String
  price : MarketPriceValue
  deriving DecidableEq

/-- Embedding of `seller.create_prices` (seller.py lines 221-233): one entry per feed
row whose code is in `offer_ids` (read-only membership test).  The
second component is the post-call contents of `offer_ids`, threaded
through the loop, which never modifies it. -/
def seller_create_prices : List Watch → List String → List SellerPrice × List String
  | [], offer_ids => ([], offer_ids)
  | w :: rest, offer_ids =>
    if w.code ∈ offer_ids then
      (SellerPrice.mk "UNKNOWN" "RUB" w.code "0" (price_conversion w.price) ::
        (seller_create_prices rest offer_ids).1,
       (seller_create_prices rest offer_ids).2)
    else seller_create_prices rest offer_ids

/-- Embedding of `market.create_prices` (market.py lines 367-402): one entry per feed
row whose code is in `offer_ids`; the price string goes through
`price_conversion` and Python `int()` (`none` models the `ValueError`).
The second component is the post-call contents of `offer_ids`, threaded
through the loop, which never modifies it. -/
def market_create_prices : List Watch → List String → Option (List MarketPrice × List String)
  | [], offer_ids => some ([], offer_ids)
  | w :: rest, offer_ids =>
    if w.code ∈ offer_ids then
      match pyInt (price_conversion w.price) with
      | none => none
      | some v =>
        (market_create_prices rest offer_ids).map
          (fun pr => (MarketPrice.mk w.code (MarketPriceValue.mk v "RUR") :: pr.1, pr.2))
    else market_create_prices rest offer_ids

/-- Embedding of `seller.divide` (seller.py lines 266-286): `for i in range(0, len(lst), n):
yield lst[i : i + n]` — successive slices of length `n`.  Modelled for
positive `n` (the source raises `ValueError` inside `range` for `n = 0`;
every claim about it assumes `n` positive). -/
def divide : List α → Nat → List (List α)
  | [], _ => []
  | _ :: _, 0 => []
  | x :: xs, n + 1 => ((x :: xs).take (n + 1)) :: divide ((x :: xs).drop (n + 1)) (n + 1)
termination_by lst _ => lst.length
decreasing_by
  simp only [List.length_drop, List.length_cons]
  omega

/-- Product entry of one Ozon product-list page (`result["items"]`
element, seller.py docstring lines 34-38). -/
structure OzonProduct where
  product_id : String
  offer_id : String
  deriving DecidableEq

/-- One Ozon `product/list` response (`result` object): `items`, declared
`total`, and the pagination cursor `last_id` (read by the loop to form
the next request; the page sequence below is the sequence of successive
responses along that cursor chain). -/
structure OzonPage where
  items : List OzonProduct
  total : Nat
  last_id : String
  deriving DecidableEq

/-- The `while True` loop of `seller.get_offer_ids` (seller.py lines
95-101): extend the accumulator with each page's items and stop when the
declared total equals the number of accumulated items.  `none` models the
loop running out of the (finite) modelled response sequence without the
break firing. -/
def ozonPagesLoop : List OzonPage → List OzonProduct → Option (List OzonProduct)
  | [], _ => none
  | p :: rest, acc =>
    if p.total = (acc ++ p.items).length then some (acc ++ p.items)
    else ozonPagesLoop rest (acc ++ p.items)

/-- Embedding of `seller.get_offer_ids` (seller.py lines 67-105): run the page loop,
then map each accumulated product to its `offer_id`. -/
def seller_get_offer_ids (pages : List OzonPage) : Option (List String) :=
  (ozonPagesLoop pages []).map (fun l => l.map OzonProduct.offer_id)

/-- The `offer` object of a Yandex Market offer-mapping entry (only
`shopSku` is read, market.py line 289). -/
structure MarketOffer where
  shopSku : String
  deriving DecidableEq

/-- One element of `offerMappingEntries` (market.py line 283). -/
structure MarketEntry where
  offer : MarketOffer
  deriving DecidableEq

/-- One Yandex Market `offer-mapping-entries` response: the entries plus
`paging.nextPageToken` (falsy token modelled as the empty string). -/
structure MarketPage where
  offerMappingEntries : List MarketEntry
  nextPageToken : String
  deriving DecidableEq

/-- The `while True` loop of `market.get_offer_ids` (market.py lines
281-286): extend the accumulator with each page's entries and stop when
the page's `nextPageToken` is falsy.  `none` models the loop running out
of the (finite) modelled response sequence without the break firing. -/
def marketPagesLoop : List MarketPage → List MarketEntry → Option (List MarketEntry)
  | [], _ => none
  | p :: rest, acc =>
    if p.nextPageToken = "" then some (acc ++ p.offerMappingEntries)
    else marketPagesLoop rest (acc ++ p.offerMappingEntries)

/-- Embedding of `market.get_offer_ids` (market.py lines 255-290): run the page loop,
then map each accumulated entry to `entry["offer"]["shopSku"]`. -/
def market_get_offer_ids (pages : List MarketPage) : Option (List String) :=
  (marketPagesLoop pages []).map (fun l => l.map (fun e => e.offer.shopSku))

/-- Price list built by `seller.main` (seller.py lines 316-326): first
`create_stocks` runs on `offer_ids`, mutating it in place; then
`create_prices` runs on the same (now shrunken) list.  When
`create_stocks` raises (bad quantity), `main`'s `except` swallows the
error before `create_prices` runs, so no price is built either. -/
def seller_main_prices (watch_remnants : List Watch) (offer_ids : List String) :
    List SellerPrice :=
  match seller_create_stocks watch_remnants offer_ids with
  | none => []
  | some (_, rem) => (seller_create_prices watch_remnants rem).1

/-- A request issued by `market.main` to the Yandex Market API: a stock
batch (`update_stocks`) or a price batch (`update_price`) for a
campaign. -/
inductive MarketReq where
  | stocks : String → List MarketStock → MarketReq
  | prices : String → List MarketPrice → MarketReq
  deriving DecidableEq

/-- Requests issued by `market.main` (market.py lines 428-460), as a
trace.  For each campaign the stock batch is built and submitted in
chunks of 2000.  The `upload_prices(...)` calls on lines 445 and 454 are
plain calls of an `async def` with no `await` and no running event loop:
in Python such a call only creates a coroutine object and executes none
of the coroutine body, so those calls contribute no requests to the
trace.  When a `create_stocks` call raises, the surrounding `try` aborts
the rest of the run, but requests already issued stay issued. -/
def market_main_reqs (nowIsoF nowIsoD : String) (watch_remnants : List Watch)
    (fbsIds dbsIds : List String) (whF whD fbsC dbsC : String) : List MarketReq :=
  match market_create_stocks nowIsoF watch_remnants fbsIds whF with
  | none => []
  | some (stocksF, _) =>
    let reqsF := (divide stocksF 2000).map (MarketReq.stocks fbsC)
    match market_create_stocks nowIsoD watch_remnants dbsIds whD with
    | none => reqsF
    | some (stocksD, _) =>
      reqsF ++ (divide stocksD 2000).map (MarketReq.stocks dbsC)

example : normalize_quantity ">10" = some 100 := by decide
example : normalize_quantity "1" = some 0 := by decide
example : normalize_quantity "2" = some 2 := by decide
example : normalize_quantity "-1" = some (-1) := by decide
example : normalize_quantity "2O" = none := by decide
example : pyInt " 12 " = some 12 := by decide
example : pyInt "1_0" = some 10 := by decide
example : pyInt "1__0" = none := by decide
example : pyInt "+7" = some 7 := by decide
example : pyInt "" = none := by decide
example : price_conversion "5990.00 RUB" = "5990" := by decide
example : price_conversion "1x2.3.4" = "12" := by decide
example :
    seller_create_stocks [Watch.mk "73309" "2" "p"] ["136748", "73309"] =
      some ([SellerStock.mk "73309" 2, SellerStock.mk "136748" 0], ["136748"]) := by decide

/-- The pairs recorded by the matching loop together with the surviving
codes are a permutation of the incoming offer list: each match moves one
occurrence of its code from the list into the pairs. -/
theorem stocksPairs_perm : ∀ (F : List Watch) (L ps r : _),
    stocksPairs F L = some (ps, r) → ((ps.map Prod.fst) ++ r).Perm L := by
  intro F
  induction F with
  | nil =>
    intro L ps r h
    simp only [stocksPairs, Option.some.injEq, Prod.mk.injEq] at h
    obtain ⟨rfl, rfl⟩ := h
    simp
  | cons w rest ih =>
    intro L ps r h
    by_cases hw : w.code ∈ L
    · rw [stocksPairs, if_pos hw] at h
      cases hq : normalize_quantity w.quantity with
      | none => rw [hq] at h; exact absurd h (by simp)
      | some stock =>
        rw [hq, Option.map_eq_some'] at h
        obtain ⟨⟨ps', r'⟩, hrec, heq⟩ := h
        simp only [Prod.mk.injEq] at heq
        obtain ⟨h1, h2⟩ := heq
        subst h1; subst h2
        have hperm := ih (L.erase w.code) ps' r' hrec
        have hcons : (((w.code, stock) :: ps').map Prod.fst ++ r') =
            w.code :: (ps'.map Prod.fst ++ r') := by simp
        rw [hcons]
        exact (hperm.cons w.code).trans (List.perm_cons_erase hw).symm
    · rw [stocksPairs, if_neg hw] at h
      exact ih L ps r h

/-- Every pair recorded by the matching loop comes from a feed row whose
code it carries, with the row's normalized quantity. -/
theorem stocksPairs_values : ∀ (F : List Watch) (L ps r : _),
    stocksPairs F L = some (ps, r) →
    ∀ p ∈ ps, ∃ w ∈ F, w.code = p.1 ∧ normalize_quantity w.quantity = some p.2 := by
  intro F
  induction F with
  | nil =>
    intro L ps r h
    simp only [stocksPairs, Option.some.injEq, Prod.mk.injEq] at h
    obtain ⟨rfl, rfl⟩ := h
    intro p hp
    exact absurd hp (by simp)
  | cons w rest ih =>
    intro L ps r h
    by_cases hw : w.code ∈ L
    · rw [stocksPairs, if_pos hw] at h
      cases hq : normalize_quantity w.quantity with
      | none => rw [hq] at h; exact absurd h (by simp)
      | some stock =>
        rw [hq, Option.map_eq_some'] at h
        obtain ⟨⟨ps', r'⟩, hrec, heq⟩ := h
        simp only [Prod.mk.injEq] at heq
        obtain ⟨h1, h2⟩ := heq
        subst h1; subst h2
        intro p hp
        rcases List.mem_cons.mp hp with rfl | hp2
        · exact ⟨w, List.mem_cons_self w rest, rfl, hq⟩
        · obtain ⟨w', hw', hc, hn⟩ := ih _ _ _ hrec p hp2
          exact ⟨w', List.mem_cons_of_mem _ hw', hc, hn⟩
    · rw [stocksPairs, if_neg hw] at h
      intro p hp
      obtain ⟨w', hw', hc, hn⟩ := ih _ _ _ h p hp
      exact ⟨w', List.mem_cons_of_mem _ hw', hc, hn⟩

/-- The surviving codes keep their original relative order: the post-loop
list is a sublist of the incoming one. -/
theorem stocksPairs_remain_sublist : ∀ (F : List Watch) (L ps r : _),
    stocksPairs F L = some (ps, r) → List.Sublist r L := by
  intro F
  induction F with
  | nil =>
    intro L ps r h
    simp only [stocksPairs, Option.some.injEq, Prod.mk.injEq] at h
    obtain ⟨rfl, rfl⟩ := h
    exact List.Sublist.refl L
  | cons w rest ih =>
    intro L ps r h
    by_cases hw : w.code ∈ L
    · rw [stocksPairs, if_pos hw] at h
      cases hq : normalize_quantity w.quantity with
      | none => rw [hq] at h; exact absurd h (by simp)
      | some stock =>
        rw [hq, Option.map_eq_some'] at h
        obtain ⟨⟨ps', r'⟩, hrec, heq⟩ := h
        simp only [Prod.mk.injEq] at heq
        obtain ⟨h1, h2⟩ := heq
        subst h1; subst h2
        exact (ih _ _ _ hrec).trans (List.erase_sublist w.code L)
    · rw [stocksPairs, if_neg hw] at h
      exact ih _ _ _ h

/-- On a duplicate-free offer list, a code survives the matching loop
exactly when it was listed and no feed row carries it. -/
theorem stocksPairs_mem_remain : ∀ (F : List Watch) (L ps r : _), L.Nodup →
    stocksPairs F L = some (ps, r) →
    ∀ c, c ∈ r ↔ (c ∈ L ∧ ∀ w ∈ F, w.code ≠ c) := by
  intro F
  induction F with
  | nil =>
    intro L ps r _ h
    simp only [stocksPairs, Option.some.injEq, Prod.mk.injEq] at h
    obtain ⟨rfl, rfl⟩ := h
    intro c
    simp
  | cons w rest ih =>
    intro L ps r hnd h
    by_cases hw : w.code ∈ L
    · rw [stocksPairs, if_pos hw] at h
      cases hq : normalize_quantity w.quantity with
      | none => rw [hq] at h; exact absurd h (by simp)
      | some stock =>
        rw [hq, Option.map_eq_some'] at h
        obtain ⟨⟨ps', r'⟩, hrec, heq⟩ := h
        simp only [Prod.mk.injEq] at heq
        obtain ⟨h1, h2⟩ := heq
        subst h1; subst h2
        intro c
        rw [ih (L.erase w.code) ps' r' (hnd.erase w.code) hrec c, hnd.mem_erase_iff]
        constructor
        · rintro ⟨⟨hcne, hcL⟩, hrest⟩
          refine ⟨hcL, fun w' hw' => ?_⟩
          rcases List.mem_cons.mp hw' with rfl | hw2
          · exact fun he => hcne he.symm
          · exact hrest w' hw2
        · rintro ⟨hcL, hall⟩
          refine ⟨⟨?_, hcL⟩, fun w' hw' => hall w' (List.mem_cons_of_mem _ hw')⟩
          intro hce
          exact hall w (List.mem_cons_self w rest) hce.symm
    · rw [stocksPairs, if_neg hw] at h
      intro c
      rw [ih L ps r hnd h c]
      constructor
      · rintro ⟨hcL, hrest⟩
        refine ⟨hcL, fun w' hw' => ?_⟩
        rcases List.mem_cons.mp hw' with rfl | hw2
        · intro hce; exact hw (hce ▸ hcL)
        · exact hrest w' hw2
      · rintro ⟨hcL, hall⟩
        exact ⟨hcL, fun w' hw' => hall w' (List.mem_cons_of_mem _ hw')⟩

/-- The function `seller.create_prices` never modifies the offer list it reads. -/
theorem seller_create_prices_snd : ∀ (F : List Watch) (ids : List String),
    (seller_create_prices F ids).2 = ids := by
  intro F
  induction F with
  | nil => intro ids; rfl
  | cons w rest ih =>
    intro ids
    by_cases hw : w.code ∈ ids
    · rw [seller_create_prices, if_pos hw]
      exact ih ids
    · rw [seller_create_prices, if_neg hw]
      exact ih ids

/-- The offer ids of the entries built by `seller.create_prices` are
exactly the codes of the feed rows whose code is listed, in feed
order. -/
theorem seller_create_prices_map : ∀ (F : List Watch) (ids : List String),
    (seller_create_prices F ids).1.map SellerPrice.offer_id =
      (F.filter (fun w => decide (w.code ∈ ids))).map Watch.code := by
  intro F
  induction F with
  | nil => intro ids; rfl
  | cons w rest ih =>
    intro ids
    by_cases hw : w.code ∈ ids
    · rw [seller_create_prices, if_pos hw,
        List.filter_cons_of_pos (by simpa using hw)]
      simp only [List.map_cons]
      rw [ih ids]
    · rw [seller_create_prices, if_neg hw,
        List.filter_cons_of_neg (by simpa using hw)]
      exact ih ids

/-- A feed whose rows are all unlisted produces no seller price
entries. -/
theorem seller_create_prices_nil : ∀ (F : List Watch) (ids : List String),
    (∀ w ∈ F, w.code ∉ ids) → (seller_create_prices F ids).1 = [] := by
  intro F
  induction F with
  | nil => intro ids _; rfl
  | cons w rest ih =>
    intro ids hall
    rw [seller_create_prices, if_neg (hall w (List.mem_cons_self w rest))]
    exact ih ids (fun w' hw' => hall w' (List.mem_cons_of_mem _ hw'))

/-- Structure of a successful `market.create_prices` run: the offer list
comes back untouched, and the entry ids are exactly the codes of the
listed feed rows, in feed order. -/
theorem market_create_prices_eq : ∀ (F : List Watch) (ids mp mids : _),
    market_create_prices F ids = some (mp, mids) →
    mids = ids ∧
      mp.map MarketPrice.id =
        (F.filter (fun w => decide (w.code ∈ ids))).map Watch.code := by
  intro F
  induction F with
  | nil =>
    intro ids mp mids h
    simp only [market_create_prices, Option.some.injEq, Prod.mk.injEq] at h
    obtain ⟨rfl, rfl⟩ := h
    exact ⟨rfl, rfl⟩
  | cons w rest ih =>
    intro ids mp mids h
    by_cases hw : w.code ∈ ids
    · rw [market_create_prices, if_pos hw] at h
      cases hv : pyInt (price_conversion w.price) with
      | none => rw [hv] at h; exact absurd h (by simp)
      | some v =>
        rw [hv, Option.map_eq_some'] at h
        obtain ⟨⟨mp', mids'⟩, hrec, heq⟩ := h
        simp only [Prod.mk.injEq] at heq
        obtain ⟨h1, h2⟩ := heq
        subst h1; subst h2
        obtain ⟨hids, hmap⟩ := ih ids mp' mids' hrec
        refine ⟨hids, ?_⟩
        rw [List.filter_cons_of_pos (by simpa using hw)]
        simp only [List.map_cons]
        rw [hmap]
    · rw [market_create_prices, if_neg hw] at h
      obtain ⟨hids, hmap⟩ := ih ids mp mids h
      refine ⟨hids, ?_⟩
      rw [List.filter_cons_of_neg (by simpa using hw)]
      exact hmap

/-- Concatenating the chunks of `divide` restores the original list. -/
theorem divide_flatten : ∀ (lst : List α) (n : Nat), 0 < n →
    (divide lst n).flatten = lst := by
  intro lst n
  induction lst, n using divide.induct with
  | case1 n => intro _; simp [divide]
  | case2 x xs => intro h; exact absurd h (by omega)
  | case3 x xs n ih =>
    intro _
    rw [divide]
    simp only [List.flatten_cons]
    rw [ih (by omega)]
    exact List.take_append_drop _ _

/-- Every chunk of `divide` except possibly the last has length exactly
`n`. -/
theorem divide_chunk_length : ∀ (lst : List α) (n : Nat), 0 < n →
    ∀ c ∈ (divide lst n).dropLast, c.length = n := by
  intro lst n
  induction lst, n using divide.induct with
  | case1 n => intro _ c hc; simp [divide] at hc
  | case2 x xs => intro h; exact absurd h (by omega)
  | case3 x xs n ih =>
    intro _ c hc
    rw [divide] at hc
    by_cases hd : divide ((x :: xs).drop (n + 1)) (n + 1) = []
    · rw [hd] at hc
      simp at hc
    · rw [List.dropLast_cons_of_ne_nil hd] at hc
      rcases List.mem_cons.mp hc with rfl | hc2
      · have hdrop : (x :: xs).drop (n + 1) ≠ [] := by
          intro hnil
          rw [hnil] at hd
          exact hd (by simp [divide])
        have hlen : n + 1 < (x :: xs).length := by
          rcases Nat.lt_or_ge (n + 1) (x :: xs).length with h | h
          · exact h
          · exact absurd (List.drop_eq_nil_of_le h) hdrop
        simp only [List.length_take]
        omega
      · exact ih (by omega) c hc2

/-- The last chunk of `divide` on a non-empty list has length between 1
and `n`. -/
theorem divide_last : ∀ (lst : List α) (n : Nat), 0 < n → lst ≠ [] →
    ∃ c, (divide lst n).getLast? = some c ∧ 1 ≤ c.length ∧ c.length ≤ n := by
  intro lst n
  induction lst, n using divide.induct with
  | case1 n => intro _ h; exact absurd rfl h
  | case2 x xs => intro h; exact absurd h (by omega)
  | case3 x xs n ih =>
    intro _ _
    rw [divide]
    cases hrest : divide ((x :: xs).drop (n + 1)) (n + 1) with
    | nil =>
      refine ⟨(x :: xs).take (n + 1), ?_, ?_, ?_⟩
      · rfl
      · simp only [List.length_take, List.length_cons]
        omega
      · simp only [List.length_take]
        omega
    | cons c0 cs =>
      have hdrop : (x :: xs).drop (n + 1) ≠ [] := by
        intro hnil
        rw [hnil] at hrest
        simp [divide] at hrest
      obtain ⟨c, hc, h1, h2⟩ := ih (by omega) hdrop
      rw [hrest] at hc
      refine ⟨c, ?_, h1, h2⟩
      rw [List.getLast?_cons_cons]
      exact hc

/-- C1: for every feed `F` and duplicate-free listed-offer list `L`, a
stock-update batch built by `create_stocks` (either integration) covers
exactly `L`: every listed identifier is the key of exactly one update,
feed-matched entries carry the normalized quantity, the remaining
entries carry count 0, and no update is emitted for a feed code outside
`L`. -/
theorem claim_c1_stock_batch_covers_listed
    (F : List Watch) (L : List String) (nowIso wh : String)
    (ss : List SellerStock) (sr : List String)
    (ms : List MarketStock) (mr : List String)
    (hnd : L.Nodup)
    (hs : seller_create_stocks F L = some (ss, sr))
    (hm : market_create_stocks nowIso F L wh = some (ms, mr)) :
    ((∀ l ∈ L, (ss.map SellerStock.offer_id).count l = 1) ∧
      (∀ s ∈ ss, s.offer_id ∈ L) ∧
      (∀ s ∈ ss,
        (∃ w ∈ F, w.code = s.offer_id ∧ normalize_quantity w.quantity = some s.stock) ∨
          ((∀ w ∈ F, w.code ≠ s.offer_id) ∧ s.stock = 0))) ∧
    ((∀ l ∈ L, (ms.map MarketStock.sku).count l = 1) ∧
      (∀ s ∈ ms, s.sku ∈ L) ∧
      (∀ s ∈ ms,
        (∃ w ∈ F, w.code = s.sku ∧ ∃ n, normalize_quantity w.quantity = some n ∧
            s.items = [MarketStockItem.mk n "FIT" (nowIso ++ "Z")]) ∨
          ((∀ w ∈ F, w.code ≠ s.sku) ∧
            s.items = [MarketStockItem.mk 0 "FIT" (nowIso ++ "Z")]))) := by
  simp only [seller_create_stocks, Option.map_eq_some'] at hs
  obtain ⟨⟨ps, r⟩, hp, heq⟩ := hs
  simp only [Prod.mk.injEq] at heq
  obtain ⟨hss, hsr⟩ := heq
  simp only [market_create_stocks, Option.map_eq_some'] at hm
  obtain ⟨⟨ps2, r2⟩, hp2, heq2⟩ := hm
  simp only [Prod.mk.injEq] at heq2
  obtain ⟨hms, hmr⟩ := heq2
  rw [hp] at hp2
  simp only [Option.some.injEq, Prod.mk.injEq] at hp2
  obtain ⟨h1, h2⟩ := hp2
  subst h1; subst h2
  subst hss; subst hsr; subst hms; subst hmr
  have hperm := stocksPairs_perm F L ps r hp
  have hvals := stocksPairs_values F L ps r hp
  have hmem := stocksPairs_mem_remain F L ps r hnd hp
  have hkeysS : (ps.map (fun p => SellerStock.mk p.1 p.2) ++
      r.map (fun oid => SellerStock.mk oid 0)).map SellerStock.offer_id =
      ps.map Prod.fst ++ r := by
    simp [List.map_map, Function.comp_def]
  have hkeysM : (ps.map (fun p =>
        MarketStock.mk p.1 wh [MarketStockItem.mk p.2 "FIT" (nowIso ++ "Z")]) ++
      r.map (fun oid =>
        MarketStock.mk oid wh [MarketStockItem.mk 0 "FIT" (nowIso ++ "Z")])).map
        MarketStock.sku = ps.map Prod.fst ++ r := by
    simp [List.map_map, Function.comp_def]
  refine ⟨⟨?_, ?_, ?_⟩, ?_, ?_, ?_⟩
  · intro l hl
    rw [hkeysS, hperm.count_eq l]
    exact List.count_eq_one_of_mem hnd hl
  · intro s hs2
    have hmemk : s.offer_id ∈ ps.map Prod.fst ++ r := by
      rw [← hkeysS]
      exact List.mem_map_of_mem _ hs2
    exact hperm.mem_iff.mp hmemk
  · intro s hs2
    rcases List.mem_append.mp hs2 with h1 | h2
    · obtain ⟨p, hpmem, rfl⟩ := List.mem_map.mp h1
      obtain ⟨w, hwF, hwc, hwq⟩ := hvals p hpmem
      exact Or.inl ⟨w, hwF, hwc, hwq⟩
    · obtain ⟨c, hcmem, rfl⟩ := List.mem_map.mp h2
      exact Or.inr ⟨((hmem c).mp hcmem).2, rfl⟩
  · intro l hl
    rw [hkeysM, hperm.count_eq l]
    exact List.count_eq_one_of_mem hnd hl
  · intro s hs2
    have hmemk : s.sku ∈ ps.map Prod.fst ++ r := by
      rw [← hkeysM]
      exact List.mem_map_of_mem _ hs2
    exact hperm.mem_iff.mp hmemk
  · intro s hs2
    rcases List.mem_append.mp hs2 with h1 | h2
    · obtain ⟨p, hpmem, rfl⟩ := List.mem_map.mp h1
      obtain ⟨w, hwF, hwc, hwq⟩ := hvals p hpmem
      exact Or.inl ⟨w, hwF, hwc, p.2, hwq, rfl⟩
    · obtain ⟨c, hcmem, rfl⟩ := List.mem_map.mp h2
      exact Or.inr ⟨((hmem c).mp hcmem).2, rfl⟩

/-- Witness for C1: a concrete two-offer catalog and one-row feed satisfy
the hypotheses, and the covered-exactly-once conclusion holds there. -/
theorem claim_c1_witness :
    ((∀ l ∈ ["136748", "73309"],
        (([SellerStock.mk "73309" 2, SellerStock.mk "136748" 0].map
          SellerStock.offer_id).count l = 1)) ∧
      (∀ s ∈ [SellerStock.mk "73309" 2, SellerStock.mk "136748" 0],
        s.offer_id ∈ ["136748", "73309"]) ∧
      (∀ s ∈ [SellerStock.mk "73309" 2, SellerStock.mk "136748" 0],
        (∃ w ∈ [Watch.mk "73309" "2" "x"], w.code = s.offer_id ∧
            normalize_quantity w.quantity = some s.stock) ∨
          ((∀ w ∈ [Watch.mk "73309" "2" "x"], w.code ≠ s.offer_id) ∧ s.stock = 0))) ∧
    ((∀ l ∈ ["136748", "73309"],
        (([MarketStock.mk "73309" "W" [MarketStockItem.mk 2 "FIT" ("T" ++ "Z")],
           MarketStock.mk "136748" "W" [MarketStockItem.mk 0 "FIT" ("T" ++ "Z")]].map
          MarketStock.sku).count l = 1)) ∧
      (∀ s ∈ [MarketStock.mk "73309" "W" [MarketStockItem.mk 2 "FIT" ("T" ++ "Z")],
           MarketStock.mk "136748" "W" [MarketStockItem.mk 0 "FIT" ("T" ++ "Z")]],
        s.sku ∈ ["136748", "73309"]) ∧
      (∀ s ∈ [MarketStock.mk "73309" "W" [MarketStockItem.mk 2 "FIT" ("T" ++ "Z")],
           MarketStock.mk "136748" "W" [MarketStockItem.mk 0 "FIT" ("T" ++ "Z")]],
        (∃ w ∈ [Watch.mk "73309" "2" "x"], w.code = s.sku ∧
            ∃ n, normalize_quantity w.quantity = some n ∧
              s.items = [MarketStockItem.mk n "FIT" ("T" ++ "Z")]) ∨
          ((∀ w ∈ [Watch.mk "73309" "2" "x"], w.code ≠ s.sku) ∧
            s.items = [MarketStockItem.mk 0 "FIT" ("T" ++ "Z")]))) :=
  claim_c1_stock_batch_covers_listed [Watch.mk "73309" "2" "x"] ["136748", "73309"]
    "T" "W"
    [SellerStock.mk "73309" 2, SellerStock.mk "136748" 0] ["136748"]
    [MarketStock.mk "73309" "W" [MarketStockItem.mk 2 "FIT" ("T" ++ "Z")],
     MarketStock.mk "136748" "W" [MarketStockItem.mk 0 "FIT" ("T" ++ "Z")]] ["136748"]
    (by decide) (by decide) (by decide)

/-- C2 counterexample: `create_stocks` does not leave the caller's offer
list unchanged — on a one-row feed matching the single listed code, the
post-call contents of `offer_ids` are `[]`, not the original list, in
both integrations. -/
theorem claim_c2_counterexample :
    seller_create_stocks [Watch.mk "73309" "2" "x"] ["73309"] =
      some ([SellerStock.mk "73309" 2], []) ∧
    market_create_stocks "T" [Watch.mk "73309" "2" "x"] ["73309"] "W" =
      some ([MarketStock.mk "73309" "W" [MarketStockItem.mk 2 "FIT" ("T" ++ "Z")]], []) ∧
    ([] : List String) ≠ ["73309"] := by decide

/-- C2 (amended): `create_stocks` mutates the caller's `offer_ids` in
place: after the call the list is a sublist of the original (order
preserved), and on a duplicate-free original a code is still present
exactly when no feed row carries it. -/
theorem claim_c2_amended
    (F : List Watch) (L : List String) (nowIso wh : String)
    (ss : List SellerStock) (sr : List String)
    (ms : List MarketStock) (mr : List String) (c : String)
    (hs : seller_create_stocks F L = some (ss, sr))
    (hm : market_create_stocks nowIso F L wh = some (ms, mr))
    (hnd : L.Nodup) :
    List.Sublist sr L ∧ List.Sublist mr L ∧
      (c ∈ sr ↔ c ∈ L ∧ ∀ w ∈ F, w.code ≠ c) ∧
      (c ∈ mr ↔ c ∈ L ∧ ∀ w ∈ F, w.code ≠ c) := by
  simp only [seller_create_stocks, Option.map_eq_some'] at hs
  obtain ⟨⟨ps, r⟩, hp, heq⟩ := hs
  simp only [Prod.mk.injEq] at heq
  obtain ⟨hss, hsr⟩ := heq
  simp only [market_create_stocks, Option.map_eq_some'] at hm
  obtain ⟨⟨ps2, r2⟩, hp2, heq2⟩ := hm
  simp only [Prod.mk.injEq] at heq2
  obtain ⟨hms, hmr⟩ := heq2
  rw [hp] at hp2
  simp only [Option.some.injEq, Prod.mk.injEq] at hp2
  obtain ⟨h1, h2⟩ := hp2
  subst h1; subst h2
  subst hsr; subst hmr
  exact ⟨stocksPairs_remain_sublist F L ps r hp,
    stocksPairs_remain_sublist F L ps r hp,
    stocksPairs_mem_remain F L ps r hnd hp c,
    stocksPairs_mem_remain F L ps r hnd hp c⟩

/-- Witness for C2's amended statement at a concrete feed and catalog. -/
theorem claim_c2_witness :
    List.Sublist ["136748"] ["136748", "73309"] ∧
    List.Sublist ["136748"] ["136748", "73309"] ∧
      ("136748" ∈ ["136748"] ↔ "136748" ∈ ["136748", "73309"] ∧
        ∀ w ∈ [Watch.mk "73309" "2" "x"], w.code ≠ "136748") ∧
      ("136748" ∈ ["136748"] ↔ "136748" ∈ ["136748", "73309"] ∧
        ∀ w ∈ [Watch.mk "73309" "2" "x"], w.code ≠ "136748") :=
  claim_c2_amended [Watch.mk "73309" "2" "x"] ["136748", "73309"] "T" "W"
    [SellerStock.mk "73309" 2, SellerStock.mk "136748" 0] ["136748"]
    [MarketStock.mk "73309" "W" [MarketStockItem.mk 2 "FIT" ("T" ++ "Z")],
     MarketStock.mk "136748" "W" [MarketStockItem.mk 0 "FIT" ("T" ++ "Z")]] ["136748"]
    "136748" (by decide) (by decide) (by decide)

/-- C3 counterexample: with a catalog that lists the same code twice,
`seller.main`'s price list is not empty — `create_stocks` removes only
one occurrence, so `create_prices` still finds the code listed. -/
theorem claim_c3_counterexample :
    seller_main_prices [Watch.mk "73309" "2" "100.00"] ["73309", "73309"] =
      [SellerPrice.mk "UNKNOWN" "RUB" "73309" "0" "100"] ∧
    seller_main_prices [Watch.mk "73309" "2" "100.00"] ["73309", "73309"] ≠ [] := by
  decide

/-- C3 (amended): in `seller.main`, for every feed and duplicate-free
catalog, the price list built after the stock pass is empty (the stock
pass removed every feed-matched code from the shared list), so the run
issues zero price-update requests. -/
theorem claim_c3_ozon_prices_empty (F : List Watch) (L : List String)
    (hnd : L.Nodup) :
    seller_main_prices F L = [] ∧ divide (seller_main_prices F L) 900 = [] := by
  have hmain : seller_main_prices F L = [] := by
    cases hs : seller_create_stocks F L with
    | none => simp [seller_main_prices, hs]
    | some pr =>
      obtain ⟨s, rem⟩ := pr
      have hred : seller_main_prices F L = (seller_create_prices F rem).1 := by
        simp [seller_main_prices, hs]
      rw [hred]
      apply seller_create_prices_nil
      intro w hw hmem
      simp only [seller_create_stocks, Option.map_eq_some'] at hs
      obtain ⟨⟨ps, r⟩, hp, heq⟩ := hs
      simp only [Prod.mk.injEq] at heq
      obtain ⟨hss, hsr⟩ := heq
      subst hsr
      exact ((stocksPairs_mem_remain F L ps r hnd hp w.code).mp hmem).2 w hw rfl
  refine ⟨hmain, ?_⟩
  rw [hmain]
  simp [divide]

/-- Witness for C3's amended statement at a concrete feed and
duplicate-free catalog. -/
theorem claim_c3_witness :
    seller_main_prices [Watch.mk "73309" "2" "100.00"] ["136748", "73309"] = [] ∧
    divide (seller_main_prices [Watch.mk "73309" "2" "100.00"] ["136748", "73309"]) 900 = [] :=
  claim_c3_ozon_prices_empty [Watch.mk "73309" "2" "100.00"] ["136748", "73309"] (by decide)

/-- A decimal digit is not a Python whitespace character. -/
theorem digit_not_pyspace (c : Char) (h : c.isDigit = true) : isPySpace c = false := by
  simp only [isPySpace, Bool.or_eq_false_iff]
  refine ⟨⟨⟨⟨⟨?_, ?_⟩, ?_⟩, ?_⟩, ?_⟩, ?_⟩ <;>
    (rw [beq_eq_false_iff_ne]; rintro rfl; exact absurd h (by decide))

/-- On an all-digit tail the digit parser folds the digits onto the
accumulator. -/
theorem goDigits_all_digits : ∀ (l : List Char) (acc : Nat),
    (∀ c ∈ l, c.isDigit = true) →
    goDigits acc l = some (l.foldl (fun a c => a * 10 + (c.toNat - 48)) acc) := by
  intro l
  induction l with
  | nil => intro acc _; rfl
  | cons c cs ih =>
    intro acc hall
    rw [goDigits.eq_def]
    simp only [if_pos (hall c (List.mem_cons_self c cs)), List.foldl_cons]
    exact ih _ (fun c2 hc2 => hall c2 (List.mem_cons_of_mem _ hc2))

/-- A non-empty all-digit character list parses to its decimal value. -/
theorem parseDigits_all_digits : ∀ (l : List Char), l ≠ [] →
    (∀ c ∈ l, c.isDigit = true) → parseDigits l = some (digitsToNat l) := by
  intro l hne hall
  cases l with
  | nil => exact absurd rfl hne
  | cons c cs =>
    rw [parseDigits, if_pos (hall c (List.mem_cons_self c cs)),
      goDigits_all_digits cs _ (fun c2 hc2 => hall c2 (List.mem_cons_of_mem _ hc2))]
    simp [digitsToNat]

/-- Python whitespace stripping does nothing to an all-digit list. -/
theorem dropWhile_pyspace_of_digits (l : List Char)
    (hall : ∀ c ∈ l, c.isDigit = true) : l.dropWhile isPySpace = l := by
  cases l with
  | nil => rfl
  | cons c cs =>
    simp [List.dropWhile_cons, digit_not_pyspace c (hall c (List.mem_cons_self c cs))]

/-- Python `int()` succeeds on every non-empty all-digit string and
returns its base-10 value. -/
theorem pyInt_all_digits (s : String) (hne : s.toList ≠ [])
    (hall : ∀ c ∈ s.toList, c.isDigit = true) :
    pyInt s = some ((digitsToNat s.toList : Nat) : Int) := by
  rw [pyInt, dropWhile_pyspace_of_digits _ hall,
    dropWhile_pyspace_of_digits _ (fun c hc => hall c (List.mem_reverse.mp hc)),
    List.reverse_reverse]
  cases hl : s.toList with
  | nil => exact absurd hl hne
  | cons c cs =>
    have hall2 : ∀ c2 ∈ c :: cs, c2.isDigit = true := hl ▸ hall
    simp only [pyIntCore]
    rw [if_neg, if_neg]
    · rw [parseDigits_all_digits (c :: cs) (by simp) hall2]
      rfl
    · rintro rfl
      exact absurd (hall2 '+' (List.mem_cons_self _ _)) (by decide)
    · rintro rfl
      exact absurd (hall2 '-' (List.mem_cons_self _ _)) (by decide)

/-- C4 counterexample: the string `"-1"` is neither `"1"` nor `">10"` and
contains a non-digit character, yet quantity normalization does not fail
on it — Python `int()` accepts the sign and returns -1. -/
theorem claim_c4_counterexample :
    normalize_quantity "-1" = some (-1) ∧
    (∃ c ∈ ("-1" : String).toList, ¬ c.isDigit = true) ∧
    ("-1" : String) ≠ "1" ∧ ("-1" : String) ≠ ">10" := by decide

/-- C4 (amended): quantity normalization maps `"1"` to 0 and `">10"` to
100; every other non-empty all-digit string parses to its base-10 value;
failure happens only on the empty string or a string containing a
non-digit character (but not conversely: Python `int()` also accepts
signs, surrounding whitespace and underscore separators). -/
theorem claim_c4_quantity_normalization (s : String)
    (h1 : s ≠ "1") (h2 : s ≠ ">10") :
    normalize_quantity ">10" = some 100 ∧
    normalize_quantity "1" = some 0 ∧
    (s.toList ≠ [] → (∀ c ∈ s.toList, c.isDigit = true) →
      normalize_quantity s = some ((digitsToNat s.toList : Nat) : Int)) ∧
    (normalize_quantity s = none →
      s.toList = [] ∨ ∃ c ∈ s.toList, ¬ c.isDigit = true) := by
  have hnq : normalize_quantity s = pyInt s := by
    rw [normalize_quantity, if_neg h2, if_neg h1]
  refine ⟨by decide, by decide, ?_, ?_⟩
  · intro hne hall
    rw [hnq]
    exact pyInt_all_digits s hne hall
  · intro hnone
    by_contra hcon
    push_neg at hcon
    obtain ⟨hne, hall⟩ := hcon
    rw [hnq, pyInt_all_digits s hne hall] at hnone
    exact absurd hnone (by simp)

/-- Witness for C4's amended statement: the all-digit string `"23"`
normalizes to 23. -/
theorem claim_c4_witness : normalize_quantity "23" = some 23 := by
  have h := (claim_c4_quantity_normalization "23" (by decide) (by decide)).2.2.1
    (by decide) (by decide)
  exact h

/-- C5: `create_prices` (either integration) emits one entry per feed
record whose code is listed (duplicates preserved, in feed order), every
entry's offer id is listed, nothing is emitted for unlisted codes, and
the offer list itself is left unchanged by the call. -/
theorem claim_c5_price_batch (F : List Watch) (L : List String)
    (mp : List MarketPrice) (mids : List String)
    (hm : market_create_prices F L = some (mp, mids)) :
    ((seller_create_prices F L).1.map SellerPrice.offer_id =
        (F.filter (fun w => decide (w.code ∈ L))).map Watch.code) ∧
      (∀ p ∈ (seller_create_prices F L).1, p.offer_id ∈ L) ∧
      (seller_create_prices F L).2 = L ∧
      (mp.map MarketPrice.id =
        (F.filter (fun w => decide (w.code ∈ L))).map Watch.code) ∧
      (∀ p ∈ mp, p.id ∈ L) ∧
      mids = L := by
  obtain ⟨hids, hmap⟩ := market_create_prices_eq F L mp mids hm
  refine ⟨seller_create_prices_map F L, ?_, seller_create_prices_snd F L,
    hmap, ?_, hids⟩
  · intro p hp
    have h1 : p.offer_id ∈ (seller_create_prices F L).1.map SellerPrice.offer_id :=
      List.mem_map_of_mem _ hp
    rw [seller_create_prices_map F L] at h1
    obtain ⟨w, hw, hwc⟩ := List.mem_map.mp h1
    have h2 := List.of_mem_filter hw
    rw [← hwc]
    simpa using h2
  · intro p hp
    have h1 : p.id ∈ mp.map MarketPrice.id := List.mem_map_of_mem _ hp
    rw [hmap] at h1
    obtain ⟨w, hw, hwc⟩ := List.mem_map.mp h1
    have h2 := List.of_mem_filter hw
    rw [← hwc]
    simpa using h2

/-- Witness for C5 at a concrete feed with a duplicate code, one listed
and one unlisted code. -/
theorem claim_c5_witness :
    ((seller_create_prices
        [Watch.mk "73309" "2" "100.00", Watch.mk "73309" "2" "100.00",
          Watch.mk "99999" "3" "5.00"] ["73309"]).1.map SellerPrice.offer_id =
      (([Watch.mk "73309" "2" "100.00", Watch.mk "73309" "2" "100.00",
          Watch.mk "99999" "3" "5.00"].filter
        (fun w => decide (w.code ∈ ["73309"]))).map Watch.code)) ∧
    (∀ p ∈ (seller_create_prices
        [Watch.mk "73309" "2" "100.00", Watch.mk "73309" "2" "100.00",
          Watch.mk "99999" "3" "5.00"] ["73309"]).1, p.offer_id ∈ ["73309"]) ∧
    (seller_create_prices
        [Watch.mk "73309" "2" "100.00", Watch.mk "73309" "2" "100.00",
          Watch.mk "99999" "3" "5.00"] ["73309"]).2 = ["73309"] ∧
    ([MarketPrice.mk "73309" (MarketPriceValue.mk 100 "RUR"),
        MarketPrice.mk "73309" (MarketPriceValue.mk 100 "RUR")].map MarketPrice.id =
      (([Watch.mk "73309" "2" "100.00", Watch.mk "73309" "2" "100.00",
          Watch.mk "99999" "3" "5.00"].filter
        (fun w => decide (w.code ∈ ["73309"]))).map Watch.code)) ∧
    (∀ p ∈ [MarketPrice.mk "73309" (MarketPriceValue.mk 100 "RUR"),
        MarketPrice.mk "73309" (MarketPriceValue.mk 100 "RUR")], p.id ∈ ["73309"]) ∧
    ["73309"] = ["73309"] :=
  claim_c5_price_batch
    [Watch.mk "73309" "2" "100.00", Watch.mk "73309" "2" "100.00",
      Watch.mk "99999" "3" "5.00"] ["73309"]
    [MarketPrice.mk "73309" (MarketPriceValue.mk 100 "RUR"),
      MarketPrice.mk "73309" (MarketPriceValue.mk 100 "RUR")] ["73309"]
    (by decide)

/-- The function `pySplit` always returns at least one segment (Python `split` never
returns an empty list). -/
theorem pySplit_ne_nil : ∀ (sep : Char) (l : List Char), pySplit sep l ≠ [] := by
  intro sep l
  cases l with
  | nil => simp [pySplit]
  | cons c cs =>
    rw [pySplit]
    by_cases hc : c = sep
    · rw [if_pos hc]
      simp
    · rw [if_neg hc]
      cases hrec : pySplit sep cs with
      | nil => simp
      | cons g gs => simp

/-- Head of `pySplit` is the prefix before the first separator. -/
theorem pySplit_headD : ∀ (sep : Char) (l : List Char),
    (pySplit sep l).headD [] = l.takeWhile (fun c => c != sep) := by
  intro sep l
  induction l with
  | nil => rfl
  | cons c cs ih =>
    by_cases hc : c = sep
    · subst hc
      rw [pySplit, if_pos rfl]
      simp [List.takeWhile_cons]
    · rw [pySplit, if_neg hc]
      cases hrec : pySplit sep cs with
      | nil => exact absurd hrec (pySplit_ne_nil sep cs)
      | cons g gs =>
        rw [hrec] at ih
        simp only [List.headD_cons] at ih
        simp [List.takeWhile_cons, hc, ih]

/-- C6: `price_conversion` returns exactly the segment of its input
before the first dot with every non-ASCII-digit character removed; the
documented example (five prime-separated digits, a fractional part and a
currency suffix) yields `"5990"`, and with several dots only the segment
before the first one is kept. -/
theorem claim_c6_price_conversion (s : String) :
    price_conversion s =
      String.mk ((s.toList.takeWhile (fun c => c != '.')).filter Char.isDigit) ∧
    price_conversion (String.mk
      ['5', Char.ofNat 39, '9', '9', '0', '.', '0', '0', ' ', 'р', 'у', 'б', '.']) =
      "5990" ∧
    price_conversion "1x2.3.4" = "12" := by
  refine ⟨?_, by decide, by decide⟩
  rw [price_conversion, pySplit_headD]

/-- C7: for every list and positive chunk size, `divide` yields nothing
on the empty list, its chunks concatenate back to the input in order,
every chunk but the last has length exactly `n`, and on a non-empty
input the last chunk's length lies in `[1, n]`. -/
theorem claim_c7_divide_chunks (lst : List α) (n : Nat) (hn : 0 < n) :
    divide ([] : List α) n = [] ∧
    (divide lst n).flatten = lst ∧
    (∀ c ∈ (divide lst n).dropLast, c.length = n) ∧
    (lst ≠ [] →
      ∃ c, (divide lst n).getLast? = some c ∧ 1 ≤ c.length ∧ c.length ≤ n) :=
  ⟨by simp [divide], divide_flatten lst n hn, divide_chunk_length lst n hn,
    fun hne => divide_last lst n hn hne⟩

/-- Witness for C7 at a concrete three-element list and chunk size 2. -/
theorem claim_c7_witness :
    divide ([] : List Nat) 2 = [] ∧
    (divide [1, 2, 3] 2).flatten = [1, 2, 3] ∧
    (∀ c ∈ (divide [1, 2, 3] 2).dropLast, c.length = 2) ∧
    (∃ c, (divide [1, 2, 3] 2).getLast? = some c ∧ 1 ≤ c.length ∧ c.length ≤ 2) := by
  obtain ⟨h1, h2, h3, h4⟩ := claim_c7_divide_chunks ([1, 2, 3] : List Nat) 2 (by decide)
  exact ⟨h1, h2, h3, h4 (by decide)⟩

/-- C8 counterexample: an Ozon stock update produced by
`seller.create_stocks` carries no timestamp at all — the dictionary the
code builds has no `updatedAt` key (nor any other timestamp), refuting
the claim for the Ozon integration. -/
theorem claim_c8_counterexample :
    seller_create_stocks [Watch.mk "73309" "2" "x"] ["73309"] =
      some ([SellerStock.mk "73309" 2], []) ∧
    (SellerStock.mk "73309" 2).toDict.lookup "updatedAt" = none ∧
    ((SellerStock.mk "73309" 2).toDict.map Prod.fst = ["offer_id", "stock"]) := by
  decide

/-- C8 (amended): in the Yandex Market integration every stock update of
a batch carries the same timestamp — the time sampled once when
`create_stocks` starts, truncated to seconds and suffixed with a literal
`"Z"` — while the Ozon integration's stock updates carry no timestamp
key at all. -/
theorem claim_c8_market_timestamp (nowIso wh : String) (F F2 : List Watch)
    (L L2 : List String) (ms : List MarketStock) (mr : List String)
    (ss : List SellerStock) (sr : List String)
    (hm : market_create_stocks nowIso F L wh = some (ms, mr))
    (_hs : seller_create_stocks F2 L2 = some (ss, sr)) :
    (∀ e ∈ ms, ∀ it ∈ e.items, it.updatedAt = nowIso ++ "Z") ∧
    (∀ d ∈ ss, d.toDict.lookup "updatedAt" = none) := by
  constructor
  · simp only [market_create_stocks, Option.map_eq_some'] at hm
    obtain ⟨⟨ps, r⟩, hp, heq⟩ := hm
    simp only [Prod.mk.injEq] at heq
    obtain ⟨hms, hmr⟩ := heq
    subst hms
    intro e he it hit
    rcases List.mem_append.mp he with h1 | h1
    · obtain ⟨p, hpmem, rfl⟩ := List.mem_map.mp h1
      simp only [List.mem_singleton] at hit
      subst hit
      rfl
    · obtain ⟨c, hcmem, rfl⟩ := List.mem_map.mp h1
      simp only [List.mem_singleton] at hit
      subst hit
      rfl
  · intro d _
    rfl

/-- Witness for C8's amended statement at one matched offer per
integration. -/
theorem claim_c8_witness :
    (∀ e ∈ [MarketStock.mk "73309" "W" [MarketStockItem.mk 2 "FIT" ("T" ++ "Z")]],
      ∀ it ∈ e.items, it.updatedAt = "T" ++ "Z") ∧
    (∀ d ∈ [SellerStock.mk "73309" 2], d.toDict.lookup "updatedAt" = none) :=
  claim_c8_market_timestamp "T" "W" [Watch.mk "73309" "2" "x"]
    [Watch.mk "73309" "2" "x"] ["73309"] ["73309"]
    [MarketStock.mk "73309" "W" [MarketStockItem.mk 2 "FIT" ("T" ++ "Z")]] []
    [SellerStock.mk "73309" 2] [] (by decide) (by decide)

/-- If some page of the response sequence declares a total equal to the
item count accumulated through it, the Ozon page loop terminates there
and returns every accumulated product. -/
theorem ozonPagesLoop_terminates : ∀ (pages : List OzonPage) (acc : List OzonProduct),
    (∃ k, k < pages.length ∧ (pages.getD k (OzonPage.mk [] 0 "")).total =
      acc.length + (((pages.take (k + 1)).map OzonPage.items).flatten).length) →
    ∃ m, 1 ≤ m ∧ m ≤ pages.length ∧
      ozonPagesLoop pages acc =
        some (acc ++ ((pages.take m).map OzonPage.items).flatten) := by
  intro pages
  induction pages with
  | nil =>
    intro acc h
    obtain ⟨k, hk, _⟩ := h
    simp at hk
  | cons p rest ih =>
    intro acc h
    by_cases hc : p.total = (acc ++ p.items).length
    · refine ⟨1, by omega, by simp, ?_⟩
      rw [ozonPagesLoop, if_pos hc]
      simp
    · obtain ⟨k, hk, htot⟩ := h
      cases k with
      | zero =>
        exfalso
        apply hc
        simp only [List.getD_cons_zero, List.take_succ_cons, List.take_zero,
          List.map_cons, List.map_nil, List.flatten_cons, List.flatten_nil,
          List.append_nil, List.length_append] at htot ⊢
        omega
      | succ j =>
        have htot2 : (rest.getD j (OzonPage.mk [] 0 "")).total =
            (acc ++ p.items).length +
              (((rest.take (j + 1)).map OzonPage.items).flatten).length := by
          simp only [List.getD_cons_succ, List.take_succ_cons, List.map_cons,
            List.flatten_cons, List.length_append] at htot ⊢
          omega
        obtain ⟨m2, h1, h2, heq⟩ :=
          ih (acc ++ p.items) ⟨j, by simpa using hk, htot2⟩
        refine ⟨m2 + 1, by omega, by simp only [List.length_cons]; omega, ?_⟩
        rw [ozonPagesLoop, if_neg hc, heq]
        simp

/-- If some page of the response sequence carries a falsy
`nextPageToken`, the Yandex Market page loop terminates there and
returns every accumulated entry. -/
theorem marketPagesLoop_terminates : ∀ (pages : List MarketPage) (acc : List MarketEntry),
    (∃ k, k < pages.length ∧ (pages.getD k (MarketPage.mk [] "x")).nextPageToken = "") →
    ∃ m, 1 ≤ m ∧ m ≤ pages.length ∧
      marketPagesLoop pages acc =
        some (acc ++ ((pages.take m).map MarketPage.offerMappingEntries).flatten) := by
  intro pages
  induction pages with
  | nil =>
    intro acc h
    obtain ⟨k, hk, _⟩ := h
    simp at hk
  | cons p rest ih =>
    intro acc h
    by_cases hc : p.nextPageToken = ""
    · refine ⟨1, by omega, by simp, ?_⟩
      rw [marketPagesLoop, if_pos hc]
      simp
    · obtain ⟨k, hk, htok⟩ := h
      cases k with
      | zero =>
        rw [List.getD_cons_zero] at htok
        exact absurd htok hc
      | succ j =>
        obtain ⟨m2, h1, h2, heq⟩ := ih (acc ++ p.offerMappingEntries)
          ⟨j, by simpa using hk, by simpa using htok⟩
        refine ⟨m2 + 1, by omega, by simp only [List.length_cons]; omega, ?_⟩
        rw [marketPagesLoop, if_neg hc, heq]
        simp

/-- C9: for a finite sequence of well-formed page responses whose
continuation signal is eventually exhausted (Ozon: some page's declared
total equals the item count accumulated through it; Yandex Market: some
page's `nextPageToken` is falsy), `get_offer_ids` terminates and
returns one offer identifier per product entry accumulated across the
consumed pages. -/
theorem claim_c9_pagination_terminates
    (opages : List OzonPage) (mpages : List MarketPage)
    (ho : ∃ k, k < opages.length ∧ (opages.getD k (OzonPage.mk [] 0 "")).total =
      (((opages.take (k + 1)).map OzonPage.items).flatten).length)
    (hmk : ∃ k, k < mpages.length ∧
      (mpages.getD k (MarketPage.mk [] "x")).nextPageToken = "") :
    (∃ m, 1 ≤ m ∧ m ≤ opages.length ∧
      seller_get_offer_ids opages =
        some ((((opages.take m).map OzonPage.items).flatten).map
          OzonProduct.offer_id)) ∧
    (∃ m, 1 ≤ m ∧ m ≤ mpages.length ∧
      market_get_offer_ids mpages =
        some ((((mpages.take m).map MarketPage.offerMappingEntries).flatten).map
          (fun e => e.offer.shopSku))) := by
  constructor
  · obtain ⟨m, h1, h2, heq⟩ := ozonPagesLoop_terminates opages [] (by
      obtain ⟨k, hk, ht⟩ := ho
      exact ⟨k, hk, by simpa using ht⟩)
    refine ⟨m, h1, h2, ?_⟩
    rw [seller_get_offer_ids, heq]
    simp
  · obtain ⟨m, h1, h2, heq⟩ := marketPagesLoop_terminates mpages [] hmk
    refine ⟨m, h1, h2, ?_⟩
    rw [market_get_offer_ids, heq]
    simp

/-- Witness for C9: one-page response sequences for both marketplaces
satisfy the exhaustion hypotheses and the loops return the single page's
identifiers. -/
theorem claim_c9_witness :
    (∃ m, 1 ≤ m ∧
      m ≤ ([OzonPage.mk [OzonProduct.mk "223681945" "136748"] 1 "x"] :
        List OzonPage).length ∧
      seller_get_offer_ids [OzonPage.mk [OzonProduct.mk "223681945" "136748"] 1 "x"] =
        some (((([OzonPage.mk [OzonProduct.mk "223681945" "136748"] 1 "x"].take m).map
          OzonPage.items).flatten).map OzonProduct.offer_id)) ∧
    (∃ m, 1 ≤ m ∧
      m ≤ ([MarketPage.mk [MarketEntry.mk (MarketOffer.mk "136748")] ""] :
        List MarketPage).length ∧
      market_get_offer_ids [MarketPage.mk [MarketEntry.mk (MarketOffer.mk "136748")] ""] =
        some (((([MarketPage.mk [MarketEntry.mk (MarketOffer.mk "136748")] ""].take m).map
          MarketPage.offerMappingEntries).flatten).map (fun e => e.offer.shopSku))) :=
  claim_c9_pagination_terminates
    [OzonPage.mk [OzonProduct.mk "223681945" "136748"] 1 "x"]
    [MarketPage.mk [MarketEntry.mk (MarketOffer.mk "136748")] ""]
    ⟨0, by decide, by decide⟩ ⟨0, by decide, by decide⟩

/-- C10: in `market.main`, with both stock passes succeeding, the issued
request trace consists exactly of the chunked stock batches for the FBS
and DBS campaigns — every request is a stock request and no price
request is ever issued, the `upload_prices` coroutine calls never having
run. -/
theorem claim_c10_no_price_requests
    (nowIsoF nowIsoD : String) (F : List Watch) (fbsIds dbsIds : List String)
    (whF whD fbsC dbsC : String)
    (sF : List MarketStock) (rF : List String)
    (sD : List MarketStock) (rD : List String)
    (hF : market_create_stocks nowIsoF F fbsIds whF = some (sF, rF))
    (hD : market_create_stocks nowIsoD F dbsIds whD = some (sD, rD)) :
    market_main_reqs nowIsoF nowIsoD F fbsIds dbsIds whF whD fbsC dbsC =
      (divide sF 2000).map (MarketReq.stocks fbsC) ++
        (divide sD 2000).map (MarketReq.stocks dbsC) ∧
    (∀ r ∈ market_main_reqs nowIsoF nowIsoD F fbsIds dbsIds whF whD fbsC dbsC,
      ∃ c b, r = MarketReq.stocks c b) := by
  have heq : market_main_reqs nowIsoF nowIsoD F fbsIds dbsIds whF whD fbsC dbsC =
      (divide sF 2000).map (MarketReq.stocks fbsC) ++
        (divide sD 2000).map (MarketReq.stocks dbsC) := by
    simp [market_main_reqs, hF, hD]
  refine ⟨heq, ?_⟩
  rw [heq]
  intro r hr
  rcases List.mem_append.mp hr with h1 | h1
  · obtain ⟨b, _, rfl⟩ := List.mem_map.mp h1
    exact ⟨fbsC, b, rfl⟩
  · obtain ⟨b, _, rfl⟩ := List.mem_map.mp h1
    exact ⟨dbsC, b, rfl⟩

/-- Witness for C10 at a concrete feed, one listed FBS offer and an
empty DBS catalog. -/
theorem claim_c10_witness :
    market_main_reqs "T" "U" [Watch.mk "73309" "2" "100.00"] ["73309"] []
        "WF" "WD" "F1" "D1" =
      (divide [MarketStock.mk "73309" "WF" [MarketStockItem.mk 2 "FIT" ("T" ++ "Z")]]
        2000).map (MarketReq.stocks "F1") ++
        (divide ([] : List MarketStock) 2000).map (MarketReq.stocks "D1") ∧
    (∀ r ∈ market_main_reqs "T" "U" [Watch.mk "73309" "2" "100.00"] ["73309"] []
        "WF" "WD" "F1" "D1",
      ∃ c b, r = MarketReq.stocks c b) :=
  claim_c10_no_price_requests "T" "U" [Watch.mk "73309" "2" "100.00"] ["73309"] []
    "WF" "WD" "F1" "D1"
    [MarketStock.mk "73309" "WF" [MarketStockItem.mk 2 "FIT" ("T" ++ "Z")]] []
    [] [] (by decide) (by decide)
